import Mathlib

/-!
Verification of the Information_Retrieval repository's core indexing and
query code against its specification.

The development shallowly embeds the Python sources:

* `src/Project1/Inverted_Index.py` and `src/Inverted_Index.py` — the
  inverted-index compression pipeline and boolean query functions;
* `src/SPIMI.py` — the single-pass in-memory index builder;
* `src/Project2/spectrum_spider/spectrum_spider/spiders/spectrumspider.py`
  — the SPIMI block accumulator, block flush and block merge.

Modelling conventions:

* A Python `dict` is embedded as an insertion-ordered association list
  `List (String × α)`; `len(d)` is the list length (keys are unique for
  every dict the code builds), `d.get`/`in` is `lookupPost`/`keysOf`.
* Document IDs are embedded as `Nat`.  The sources store docIDs as decimal
  strings and systematically coerce them with `int(...)` before every
  comparison or sort (`intersect`, `sorted(..., key=int)`), so the numeric
  value is the only observable; `int`/`str` round-trips become the
  identity.  (`SPIMI.py` compares docIDs only for equality, so there they
  stay `String`.)
* Python `sorted` on integers is `List.insertionSort (· ≤ ·)` — on a
  linearly ordered type any correct sort computes the same list.
* Python `list(set(xs))` has unspecified iteration order in CPython; it is
  embedded as first-occurrence deduplication `pyDedup`, and every claim
  about such a list is stated at the level of membership / `Nodup`, which
  is independent of the order chosen.
* The NLTK Porter stemmer is an external collaborator; it is embedded as
  an arbitrary function parameter `stem : String → String`.
-/

namespace InfoRetrieval

/-! ## Definitions -/

/-! ### Python-flavoured list helpers -/

/-- First-occurrence deduplication, the content of Python's
`list(set(xs))` (CPython's set order is unspecified; claims about such
lists are stated up to membership) and of the repeated
`if x not in acc: acc.append(x)` idiom. -/
def pyDedup {α : Type} [DecidableEq α] (l : List α) : List α :=
  l.foldl (fun acc a => if a ∈ acc then acc else acc ++ [a]) []

/-- Python `sorted` on a list of integers. -/
def pySorted (l : List Nat) : List Nat :=
  l.insertionSort (· ≤ ·)

/-- Python `str.lower()`: lowercase each character (the corpus tokens and
query terms are ASCII, where Python's and Lean's per-character lowercasing
agree). -/
def pyLower (s : String) : String :=
  ⟨s.data.map Char.toLower⟩

/-- Python `str.strip()`: drop leading and trailing whitespace. -/
def pyStrip (s : String) : String :=
  ⟨((s.data.dropWhile Char.isWhitespace).reverse.dropWhile Char.isWhitespace).reverse⟩

/-! ### The Python `dict` model

A Python dict is an insertion-ordered map; we embed the dicts the code
builds as association lists `List (String × α)` whose keys are unique.
`extendPost t ps` is the idiom `if t not in d: d[t] = []` followed by
`d[t].extend(ps)`; `addPost t p` is the same with `.append(p)`. -/

/-- `d.get(t)`: the value stored at the first (for the code's dicts, only)
entry with key `t`. -/
def lookupPost {α : Type} : List (String × α) → String → Option α
  | [], _ => none
  | (s, v) :: rest, t => if s = t then some v else lookupPost rest t

/-- The key list of a dict, in insertion order. -/
def keysOf {α : Type} (d : List (String × α)) : List String :=
  d.map Prod.fst

/-- `if t not in d: d[t] = []` then `d[t].extend(ps)`. -/
def extendPost {P : Type} (t : String) (ps : List P) :
    List (String × List P) → List (String × List P)
  | [] => [(t, ps)]
  | (s, old) :: rest =>
      if s = t then (s, old ++ ps) :: rest else (s, old) :: extendPost t ps rest

/-- `if t not in d: d[t] = []` then `d[t].append(p)`. -/
def addPost {P : Type} (t : String) (p : P)
    (d : List (String × List P)) : List (String × List P) :=
  extendPost t [p] d

/-! ### src/Project1/Inverted_Index.py and src/Inverted_Index.py

An index maps a term to its postings list of docIDs.  DocIDs are embedded
as `Nat` (the sources coerce them with `int(...)` for every comparison).
-/

/-- The inverted-index type of Project1: `\x7bterm: [docID, ...]\x7d`. -/
abbrev PIndex := List (String × List Nat)

/-- `process_single_term_query` (identical in both files): strip the query
term, then `index.get(term, [])`. -/
def processSingleTermQuery (index : PIndex) (term : String) : List Nat :=
  let term := pyStrip term
  (lookupPost index term).getD []

/-- The two-cursor walk inside `intersect`, applied to the already sorted
lists: advance the lesser cursor, emit on equality. -/
def mergeInter : List Nat → List Nat → List Nat
  | [], _ => []
  | _ :: _, [] => []
  | a :: as, b :: bs =>
      if a = b then a :: mergeInter as bs
      else if a < b then mergeInter as (b :: bs)
      else mergeInter (a :: as) bs
  termination_by p1 p2 => p1.length + p2.length

/-- `intersect(p1, p2)`: coerce both lists to integers, sort them, then run
the two-pointer merge.  (The source's final `str(...)` on each emitted
docID is the identity under the numeric embedding.) -/
def intersect (p1 p2 : List Nat) : List Nat :=
  mergeInter (pySorted p1) (pySorted p2)

/-- `case_fold(index)`: extend `folded_index[term.lower()]` with each
term's postings in iteration order, then replace every postings list by
`sorted(list(set(...)), key=int)`. -/
def case_fold (index : PIndex) : PIndex :=
  (index.foldl (fun f e => extendPost (pyLower e.1) e.2 f) []).map
    (fun e => (e.1, pySorted (pyDedup e.2)))

/-- `re.fullmatch(r'\d+', term)`: the whole term is a nonempty run of
digits.  (The system's terms are produced by tokenizers that split on
`[^A-Za-z0-9]+` or match `[a-z0-9]+`, so terms are ASCII and Python's
Unicode-aware `\d` coincides with `[0-9]`, i.e. `Char.isDigit`.) -/
def fullmatchDigits (term : String) : Bool :=
  !term.data.isEmpty && term.data.all Char.isDigit

/-- The spec's removal condition, the regex `^[0-9]+$`: a nonempty string
of ASCII digit characters. -/
def specNumericRe (term : String) : Prop :=
  term.data ≠ [] ∧ ∀ c ∈ term.data, '0' ≤ c ∧ c ≤ '9'

/-- `remove_numeric_terms(index)` (identical in both files): keep a term
iff it does not fully match `\d+`. -/
def remove_numeric_terms (index : PIndex) : PIndex :=
  index.filter (fun e => !fullmatchDigits e.1)

/-- `STOPWORDS_30` (identical in both files). -/
def STOPWORDS_30 : List String :=
  ["the", "a", "and", "or", "is", "in", "of", "to", "that", "this",
   "it", "be", "for", "with", "on", "as", "by", "at", "from", "are",
   "was", "were", "been", "have", "has", "do", "does", "did", "an", "but"]

/-- `STOPWORDS_150` (identical in both files; the Python set literal
repeats some words — set semantics make that immaterial, membership is
what the code tests). -/
def STOPWORDS_150 : List String :=
  ["the", "a", "and", "or", "is", "in", "of", "to", "that", "this",
   "it", "be", "for", "with", "on", "as", "by", "at", "from", "are",
   "was", "were", "been", "have", "has", "do", "does", "did", "an", "but",
   "about", "after", "all", "between", "can", "could", "each", "few", "had", "he",
   "her", "him", "his", "how", "if", "its", "just", "no", "not", "now",
   "only", "other", "our", "out", "over", "same", "so", "some", "such", "than",
   "then", "there", "these", "they", "those", "too", "under", "very", "what", "when",
   "where", "which", "who", "why", "will", "you", "your", "would", "could", "should",
   "may", "might", "must", "shall", "can", "will", "into", "through", "during", "before",
   "after", "above", "below", "up", "down", "out", "off", "over", "under", "again",
   "further", "then", "once", "here", "there", "when", "where", "why", "how", "all",
   "both", "each", "few", "more", "most", "other", "some", "such", "no", "nor",
   "not", "only", "own", "same", "so", "than", "too", "very", "can", "just",
   "should", "now", "am", "being", "having", "doing", "me", "him", "her", "us",
   "them", "my", "your", "his", "her", "its", "our", "their", "what", "which",
   "who", "whom", "whose", "that", "this", "these", "those", "i", "you", "he"]

/-- `compress_index_30_stopwords(index)`: keep a term iff
`term.lower() not in STOPWORDS_30`. -/
def compress_index_30_stopwords (index : PIndex) : PIndex :=
  index.filter (fun e => !(STOPWORDS_30.contains (pyLower e.1)))

/-- `compress_index_150_stopwords(index)`: keep a term iff
`term.lower() not in STOPWORDS_150`. -/
def compress_index_150_stopwords (index : PIndex) : PIndex :=
  index.filter (fun e => !(STOPWORDS_150.contains (pyLower e.1)))

/-- `apply_stemming(index)`: extend `stemmed[stemmer.stem(term)]` with
each term's postings in iteration order, then replace every postings list
by `list(set(...))`.  The NLTK Porter stemmer is the external collaborator
`stem`. -/
def apply_stemming (stem : String → String) (index : PIndex) : PIndex :=
  (index.foldl (fun f e => extendPost (stem e.1) e.2 f) []).map
    (fun e => (e.1, pyDedup e.2))

/-- `build_compressed_index(index)` of `src/Project1/Inverted_Index.py`:
case fold, then numeric filter, then 30 stopwords, then 150 stopwords,
then stemming. -/
def build_compressed_index (stem : String → String) (index : PIndex) : PIndex :=
  let compressed := case_fold index
  let compressed := remove_numeric_terms compressed
  let compressed := compress_index_30_stopwords compressed
  let compressed := compress_index_150_stopwords compressed
  let compressed := apply_stemming stem compressed
  compressed

/-- `build_compressed_index(index)` of the top-level
`src/Inverted_Index.py`: numeric filter, then 30 stopwords, then 150
stopwords, then stemming — no case-fold stage. -/
def build_compressed_index_root (stem : String → String) (index : PIndex) : PIndex :=
  let compressed := remove_numeric_terms index
  let compressed := compress_index_30_stopwords compressed
  let compressed := compress_index_150_stopwords compressed
  let compressed := apply_stemming stem compressed
  compressed

/-- Modelled from the spec (§4.6 `lookup`): trim surrounding whitespace,
lowercase the term if and only if the target index was case-folded, then
return the term's postings or an empty result.  This is the behaviour the
spec ascribes to single-term lookup; it is compared against the code's
`processSingleTermQuery`. -/
def specLookup (caseFolded : Bool) (index : PIndex) (term : String) : List Nat :=
  let t := pyStrip term
  let t := if caseFolded then pyLower t else t
  (lookupPost index t).getD []

/-! ### src/SPIMI.py

The single-pass builder: for each document in sequence, for each nonempty
token, initialise the term's postings list if the term is new, and append
the docID only if it is not already present.  DocIDs here are the `newid`
attribute strings, compared only for equality. -/

/-- One token step of `SPIMI`: `if term not in all_documents:
all_documents[term] = []` then `if doc_id not in all_documents[term]:
all_documents[term].append(doc_id)`. -/
def spimiInsert (term : String) (docId : String) :
    List (String × List String) → List (String × List String)
  | [] => [(term, [docId])]
  | (s, ps) :: rest =>
      if s = term then (s, if docId ∈ ps then ps else ps ++ [docId]) :: rest
      else (s, ps) :: spimiInsert term docId rest

/-- The token loop of `SPIMI` for one document: empty tokens are skipped
(`if term:`), each other token goes through `spimiInsert`. -/
def spimiAddDoc (docId : String) (tokens : List String)
    (index : List (String × List String)) : List (String × List String) :=
  tokens.foldl (fun acc term => if term = "" then acc else spimiInsert term docId acc) index

/-- `SPIMI(all_documents)` started on the empty dict, applied to the
sequence of `(newid, tokens)` documents the corpus parse yields. -/
def SPIMI (docs : List (String × List String)) : List (String × List String) :=
  docs.foldl (fun idx d => spimiAddDoc d.1 d.2 idx) []

/-! ### src/Project2/.../spectrumspider.py — SPIMI blocks

A posting is the dict `\x7b"docID": ..., "freq": ..., "url": ...\x7d`.
`add_to_spimi_block` ingests one document, `flush_block` moves the active
block to stable storage (the `flushed` list stands for the numbered
`blocks/block_i.json` files, in block-number order), and `closed` merges
all flushed blocks into the final index. -/

/-- One posting of the spider's block index. -/
structure Posting where
  docID : Nat
  freq : Nat
  url : String
deriving DecidableEq

/-- A SPIMI block: one in-memory term → postings dict. -/
abbrev Block := List (String × List Posting)

/-- `Counter(tokens)`: distinct tokens in first-occurrence order, each
with its multiplicity. -/
def counter (tokens : List String) : List (String × Nat) :=
  (pyDedup tokens).map (fun t => (t, tokens.count t))

/-- The spider's SPIMI state: the active block, the number of blocks
flushed so far, and the flushed block files in block-number order. -/
structure SpimiState where
  inverted_block : Block
  block_number : Nat
  flushed : List Block
deriving DecidableEq

/-- `flush_block`: bump the block number, write the active block to disk,
reset the in-memory block. -/
def flush_block (st : SpimiState) : SpimiState :=
  { inverted_block := [],
    block_number := st.block_number + 1,
    flushed := st.flushed ++ [st.inverted_block] }

/-- The spider's fixed block threshold `BLOCK_TERM_LIMIT`. -/
def BLOCK_TERM_LIMIT : Nat := 4000

/-- The per-term loop of `add_to_spimi_block`: for each `(term, freq)` of
`Counter(tokens)`, append the posting `\x7bdocID, freq, url\x7d` to the
block's entry for the term. -/
def spimiIngest (tokens : List String) (docId : Nat) (url : String)
    (b : Block) : Block :=
  (counter tokens).foldl (fun b e => addPost e.1 ⟨docId, e.2, url⟩ b) b

/-- `add_to_spimi_block(tokens, doc_id, url)`: append one posting per
distinct term of the document to the active block, then flush if the
block now holds at least `T` terms (`len(self.inverted_block) >=
self.BLOCK_TERM_LIMIT`). -/
def add_to_spimi_block (T : Nat) (tokens : List String) (docId : Nat)
    (url : String) (st : SpimiState) : SpimiState :=
  if T ≤ (spimiIngest tokens docId url st.inverted_block).length then
    flush_block { st with inverted_block := spimiIngest tokens docId url st.inverted_block }
  else
    { st with inverted_block := spimiIngest tokens docId url st.inverted_block }

/-- The spider's initial state. -/
def initSpider : SpimiState :=
  { inverted_block := [], block_number := 0, flushed := [] }

/-- Feed the documents to `add_to_spimi_block` in order; document number
`i` (0-based position) is assigned `doc_id = i + 1`, as the spider's
incrementing `document_count` does.  A document is its token list and its
url. -/
def runSpimiFrom (T : Nat) : Nat → List (List String × String) → SpimiState → SpimiState
  | _, [], st => st
  | i, d :: rest, st =>
      runSpimiFrom T (i + 1) rest (add_to_spimi_block T d.1 (i + 1) d.2 st)

/-- A whole crawl: all documents from the initial state. -/
def runSpimi (T : Nat) (corpus : List (List String × String)) : SpimiState :=
  runSpimiFrom T 0 corpus initSpider

/-- The block files present when `closed` runs: the flushed blocks, plus a
final flush of the active block if it is nonempty. -/
def closedBlocks (st : SpimiState) : List Block :=
  if st.inverted_block.length > 0 then (flush_block st).flushed else st.flushed

/-- The merge loop of `closed`: for each block in block-number order, for
each `(term, postings)` entry, `final_index[term].extend(postings)` (with
`if term not in final_index: final_index[term] = []`). -/
def mergeBlocks (blocks : List Block) : Block :=
  blocks.foldl (fun final block => block.foldl (fun f e => extendPost e.1 e.2 f) final) []

/-- The final merged index `index.json` produced by `closed` for a corpus.
(When no block was ever flushed, `closed` returns without writing a file;
both that and merging zero blocks denote the empty index.) -/
def finalIndexOf (T : Nat) (corpus : List (List String × String)) : Block :=
  mergeBlocks (closedBlocks (runSpimi T corpus))

/-- The docIDs of a postings list. -/
def docIDsOf (ps : List Posting) : List Nat :=
  ps.map Posting.docID

/-- Modelled from the spec (§4.4 and §8, build equivalence): the per-term
docID list of the hypothetical non-blocked full build over the same token
stream — the ascending list of docIDs of the documents that contain the
term, documents being numbered `i + 1`, `i + 2`, ... . -/
def specFullBuild (i : Nat) : List (List String × String) → String → List Nat
  | [], _ => []
  | d :: rest, t => (if t ∈ d.1 then [i + 1] else []) ++ specFullBuild (i + 1) rest t

/-- The full posting sequence a term receives from a document stream
numbered from `i + 1`: one posting per containing document, in stream
order (the proof-level reference for `streamOf`). -/
def postingsSeq (i : Nat) : List (List String × String) → String → List Posting
  | [], _ => []
  | d :: rest, t =>
      (if t ∈ d.1 then [⟨i + 1, d.1.count t, d.2⟩] else []) ++ postingsSeq (i + 1) rest t

/-- All postings a state holds for a term: those in flushed blocks, in
block order, followed by those in the active block. -/
def streamOf (st : SpimiState) (t : String) : List Posting :=
  (st.flushed.map (fun b => (lookupPost b t).getD [])).flatten ++
    (lookupPost st.inverted_block t).getD []

/-- Well-formedness of a block dict: unique keys and no empty postings
list (every entry is created with its first posting). -/
def BlockWF (b : Block) : Prop :=
  (keysOf b).Nodup ∧ ∀ e ∈ b, e.2 ≠ []

/-- Well-formedness of a spider state: the active block and all flushed
blocks are well-formed. -/
def StateWF (st : SpimiState) : Prop :=
  BlockWF st.inverted_block ∧ ∀ b ∈ st.flushed, BlockWF b

/-! ## Helper lemmas -/

/-! ### `pyDedup` and `pySorted` -/

theorem pyDedup_foldl_mem {α : Type} [DecidableEq α] (l : List α) :
    ∀ (acc : List α) (x : α),
      x ∈ l.foldl (fun acc a => if a ∈ acc then acc else acc ++ [a]) acc ↔
        x ∈ acc ∨ x ∈ l := by
  induction l with
  | nil => simp
  | cons a t ih =>
      intro acc x
      simp only [List.foldl_cons, ih, List.mem_cons]
      by_cases h : a ∈ acc
      · simp only [if_pos h]
        constructor
        · intro hx; tauto
        · rintro (hx | hx | hx)
          · tauto
          · exact Or.inl (hx ▸ h)
          · tauto
      · simp only [if_neg h, List.mem_append, List.mem_singleton]
        tauto

theorem mem_pyDedup {α : Type} [DecidableEq α] {l : List α} {x : α} :
    x ∈ pyDedup l ↔ x ∈ l := by
  unfold pyDedup
  rw [pyDedup_foldl_mem]
  simp

theorem pyDedup_foldl_nodup {α : Type} [DecidableEq α] (l : List α) :
    ∀ acc : List α, acc.Nodup →
      (l.foldl (fun acc a => if a ∈ acc then acc else acc ++ [a]) acc).Nodup := by
  induction l with
  | nil => exact fun acc h => h
  | cons a t ih =>
      intro acc hacc
      simp only [List.foldl_cons]
      by_cases h : a ∈ acc
      · simpa [h] using ih acc hacc
      · refine ih _ ?_
        simpa [List.nodup_append, h] using hacc

theorem pyDedup_nodup {α : Type} [DecidableEq α] (l : List α) :
    (pyDedup l).Nodup :=
  pyDedup_foldl_nodup l [] List.nodup_nil

theorem pyDedup_append_singleton {α : Type} [DecidableEq α] (l : List α) (a : α) :
    pyDedup (l ++ [a]) = if a ∈ l then pyDedup l else pyDedup l ++ [a] := by
  unfold pyDedup
  rw [List.foldl_append]
  simp only [List.foldl_cons, List.foldl_nil]
  by_cases h : a ∈ l
  · rw [if_pos, if_pos h]
    rw [pyDedup_foldl_mem]; simp [h]
  · rw [if_neg, if_neg h]
    rw [pyDedup_foldl_mem]; simp [h]

theorem mem_pySorted {l : List Nat} {x : Nat} : x ∈ pySorted l ↔ x ∈ l :=
  (List.perm_insertionSort (· ≤ ·) l).mem_iff

theorem pySorted_sorted (l : List Nat) : List.Sorted (· ≤ ·) (pySorted l) :=
  List.sorted_insertionSort (· ≤ ·) l

theorem pySorted_nodup {l : List Nat} (h : l.Nodup) : (pySorted l).Nodup :=
  ((List.perm_insertionSort (· ≤ ·) l).nodup_iff).2 h

theorem pySorted_eq_self {l : List Nat} (h : List.Sorted (· ≤ ·) l) :
    pySorted l = l :=
  List.Sorted.insertionSort_eq h

/-- A `≤`-sorted list with no duplicates is strictly sorted. -/
theorem sorted_lt_of_sorted_le_nodup {l : List Nat}
    (hs : List.Sorted (· ≤ ·) l) (hn : l.Nodup) :
    List.Sorted (· < ·) l := by
  induction l with
  | nil => simp
  | cons a t ih =>
      rw [List.sorted_cons] at hs ⊢
      rw [List.nodup_cons] at hn
      refine ⟨fun b hb => lt_of_le_of_ne (hs.1 b hb) ?_, ih hs.2 hn.2⟩
      intro hab
      exact hn.1 (hab ▸ hb)

/-! ### The dict model -/

theorem lookupPost_extendPost {P : Type} (t : String) (ps : List P)
    (d : List (String × List P)) (s : String) :
    lookupPost (extendPost t ps d) s =
      if s = t then some ((lookupPost d t).getD [] ++ ps)
      else lookupPost d s := by
  induction d with
  | nil =>
      by_cases h : s = t
      · subst h; simp [extendPost, lookupPost]
      · simp [extendPost, lookupPost, h, Ne.symm h]
  | cons e rest ih =>
      obtain ⟨k, old⟩ := e
      by_cases hk : k = t
      · subst hk
        by_cases hs : s = k
        · subst hs; simp [extendPost, lookupPost]
        · simp [extendPost, lookupPost, hs, Ne.symm hs]
      · by_cases hs : s = k
        · subst hs
          simp [extendPost, lookupPost, hk, Ne.symm hk]
        · simp [extendPost, lookupPost, hk, hs, Ne.symm hs, ih]

theorem keysOf_extendPost {P : Type} (t : String) (ps : List P)
    (d : List (String × List P)) :
    keysOf (extendPost t ps d) =
      if t ∈ keysOf d then keysOf d else keysOf d ++ [t] := by
  induction d with
  | nil => simp [extendPost, keysOf]
  | cons e rest ih =>
      obtain ⟨k, old⟩ := e
      by_cases hk : k = t
      · subst hk
        simp [extendPost, keysOf]
      · simp only [extendPost, if_neg hk, keysOf, List.map_cons] at ih ⊢
        rw [ih]
        by_cases hmem : t ∈ keysOf rest
        · simp [keysOf] at hmem
          simp [hmem, Ne.symm hk, keysOf]
        · simp [keysOf] at hmem
          simp [hmem, Ne.symm hk, keysOf]

theorem mem_keysOf_extendPost {P : Type} (t : String) (ps : List P)
    (d : List (String × List P)) (s : String) :
    s ∈ keysOf (extendPost t ps d) ↔ s ∈ keysOf d ∨ s = t := by
  rw [keysOf_extendPost]
  by_cases h : t ∈ keysOf d
  · simp only [if_pos h]
    constructor
    · tauto
    · rintro (hs | rfl) <;> [exact hs; exact h]
  · simp [if_neg h]

theorem keysOf_nodup_extendPost {P : Type} (t : String) (ps : List P)
    {d : List (String × List P)} (h : (keysOf d).Nodup) :
    (keysOf (extendPost t ps d)).Nodup := by
  rw [keysOf_extendPost]
  by_cases hm : t ∈ keysOf d
  · simpa [hm] using h
  · simpa [hm, List.nodup_append] using h

theorem length_extendPost {P : Type} (t : String) (ps : List P)
    (d : List (String × List P)) :
    (extendPost t ps d).length ≤ d.length + 1 := by
  induction d with
  | nil => simp [extendPost]
  | cons e rest ih =>
      obtain ⟨k, old⟩ := e
      by_cases hk : k = t
      · simp [extendPost, hk]
      · simp only [extendPost, if_neg hk, List.length_cons]
        omega

theorem lookupPost_eq_none_iff {α : Type} (d : List (String × α)) (t : String) :
    lookupPost d t = none ↔ t ∉ keysOf d := by
  induction d with
  | nil => simp [lookupPost, keysOf]
  | cons e rest ih =>
      obtain ⟨k, v⟩ := e
      by_cases hk : k = t
      · subst hk; simp [lookupPost, keysOf]
      · simp [lookupPost, hk, keysOf, ih, Ne.symm hk]

theorem lookupPost_mem {α : Type} {d : List (String × α)} {t : String} {v : α}
    (h : lookupPost d t = some v) : (t, v) ∈ d := by
  induction d with
  | nil => simp [lookupPost] at h
  | cons e rest ih =>
      obtain ⟨k, w⟩ := e
      by_cases hk : k = t
      · subst hk
        simp [lookupPost] at h
        simp [h]
      · simp [lookupPost, hk] at h
        exact List.mem_cons_of_mem _ (ih h)

theorem lookupPost_isSome_iff {α : Type} (d : List (String × α)) (t : String) :
    (lookupPost d t).isSome ↔ t ∈ keysOf d := by
  cases h : lookupPost d t with
  | none =>
      simp [(lookupPost_eq_none_iff d t).1 h]
  | some v =>
      simp only [Option.isSome_some, true_iff]
      exact List.mem_map_of_mem Prod.fst (lookupPost_mem h)

/-- The effect of folding `extendPost` over a list of entries: the value at
`u` receives, in order, the payload of every entry whose key is `u`. -/
theorem foldl_extendPost_lookup {P : Type} (L : List (String × List P)) :
    ∀ (f0 : List (String × List P)) (u : String),
      (lookupPost (L.foldl (fun f e => extendPost e.1 e.2 f) f0) u).getD [] =
        (lookupPost f0 u).getD [] ++
          ((L.filter (fun e => e.1 = u)).map Prod.snd).flatten := by
  induction L with
  | nil => simp
  | cons e rest ih =>
      intro f0 u
      obtain ⟨k, ps⟩ := e
      simp only [List.foldl_cons, ih]
      rw [lookupPost_extendPost]
      by_cases hk : k = u
      · subst hk
        simp [List.filter_cons]
      · simp [List.filter_cons, hk, Ne.symm hk]

theorem foldl_extendPost_keys {P : Type} (L : List (String × List P)) :
    ∀ (f0 : List (String × List P)) (u : String),
      u ∈ keysOf (L.foldl (fun f e => extendPost e.1 e.2 f) f0) ↔
        u ∈ keysOf f0 ∨ u ∈ L.map Prod.fst := by
  induction L with
  | nil => simp
  | cons e rest ih =>
      intro f0 u
      simp only [List.foldl_cons, ih, mem_keysOf_extendPost, List.map_cons,
        List.mem_cons]
      tauto

theorem foldl_extendPost_keys_nodup {P : Type} (L : List (String × List P)) :
    ∀ (f0 : List (String × List P)), (keysOf f0).Nodup →
      (keysOf (L.foldl (fun f e => extendPost e.1 e.2 f) f0)).Nodup := by
  induction L with
  | nil => exact fun f0 h => h
  | cons e rest ih =>
      intro f0 h
      exact ih _ (keysOf_nodup_extendPost e.1 e.2 h)

theorem foldl_extendPost_length {P : Type} (L : List (String × List P)) :
    ∀ (f0 : List (String × List P)),
      (L.foldl (fun f e => extendPost e.1 e.2 f) f0).length ≤
        f0.length + L.length := by
  induction L with
  | nil => simp
  | cons e rest ih =>
      intro f0
      calc (List.foldl (fun f e => extendPost e.1 e.2 f) (extendPost e.1 e.2 f0) rest).length
          ≤ (extendPost e.1 e.2 f0).length + rest.length := ih _
        _ ≤ (f0.length + 1) + rest.length :=
            Nat.add_le_add_right (length_extendPost _ _ _) _
        _ = f0.length + (e :: rest).length := by simp; omega

/-! ### The two-pointer intersection -/

theorem mergeInter_comm (p1 p2 : List Nat) : mergeInter p1 p2 = mergeInter p2 p1 := by
  generalize hn : p1.length + p2.length = n
  induction n using Nat.strong_induction_on generalizing p1 p2 with
  | _ n ih =>
    match p1, p2 with
    | [], p2 => cases p2 <;> simp [mergeInter]
    | a :: as, [] => simp [mergeInter]
    | a :: as, b :: bs =>
      by_cases hab : a = b
      · subst hab
        have h1 : mergeInter (a :: as) (a :: bs) = a :: mergeInter as bs := by
          simp [mergeInter]
        have h2 : mergeInter (a :: bs) (a :: as) = a :: mergeInter bs as := by
          simp [mergeInter]
        rw [h1, h2, ih (as.length + bs.length) (by simp at hn; omega) as bs rfl]
      · rcases Nat.lt_or_ge a b with hlt | hge
        · have h1 : mergeInter (a :: as) (b :: bs) = mergeInter as (b :: bs) := by
            simp [mergeInter, hab, hlt]
          have h2 : mergeInter (b :: bs) (a :: as) = mergeInter (b :: bs) as := by
            have : ¬ b < a := by omega
            simp [mergeInter, Ne.symm hab, this]
          rw [h1, h2]
          exact ih (as.length + (b :: bs).length) (by simp at hn ⊢; omega) as (b :: bs) rfl
        · have hba : b < a := lt_of_le_of_ne hge (fun h => hab h.symm)
          have h1 : mergeInter (a :: as) (b :: bs) = mergeInter (a :: as) bs := by
            have : ¬ a < b := by omega
            simp [mergeInter, hab, this]
          have h2 : mergeInter (b :: bs) (a :: as) = mergeInter bs (a :: as) := by
            simp [mergeInter, Ne.symm hab, hba]
          rw [h1, h2]
          exact ih ((a :: as).length + bs.length) (by simp at hn ⊢; omega) (a :: as) bs rfl

theorem mem_mergeInter {p1 p2 : List Nat}
    (h1 : List.Sorted (· ≤ ·) p1) (h2 : List.Sorted (· ≤ ·) p2) (x : Nat) :
    x ∈ mergeInter p1 p2 ↔ x ∈ p1 ∧ x ∈ p2 := by
  generalize hn : p1.length + p2.length = n
  induction n using Nat.strong_induction_on generalizing p1 p2 with
  | _ n ih =>
    match p1, p2 with
    | [], p2 => cases p2 <;> simp [mergeInter]
    | a :: as, [] => simp [mergeInter]
    | a :: as, b :: bs =>
      rw [List.sorted_cons] at h1 h2
      by_cases hab : a = b
      · subst hab
        have ihs := ih (as.length + bs.length) (by simp at hn; omega) h1.2 h2.2 rfl
        have hstep : mergeInter (a :: as) (a :: bs) = a :: mergeInter as bs := by
          simp [mergeInter]
        rw [hstep]
        simp only [List.mem_cons, ihs]
        constructor
        · rintro (rfl | ⟨hx1, hx2⟩)
          · exact ⟨Or.inl rfl, Or.inl rfl⟩
          · exact ⟨Or.inr hx1, Or.inr hx2⟩
        · rintro ⟨hx1, hx2⟩
          rcases hx1 with rfl | hx1
          · exact Or.inl rfl
          · rcases hx2 with rfl | hx2
            · exact Or.inl rfl
            · exact Or.inr ⟨hx1, hx2⟩
      · rcases Nat.lt_or_ge a b with hlt | hge
        · have hstep : mergeInter (a :: as) (b :: bs) = mergeInter as (b :: bs) := by
            simp [mergeInter, hab, hlt]
          have hnb : a ∉ b :: bs := by
            intro hmem
            rcases List.mem_cons.1 hmem with rfl | hmem
            · omega
            · have := h2.1 a hmem; omega
          rw [hstep, ih (as.length + (b :: bs).length) (by simp at hn ⊢; omega)
            h1.2 (List.sorted_cons.2 h2) rfl]
          simp only [List.mem_cons]
          constructor
          · rintro ⟨hx1, hx2⟩; tauto
          · rintro ⟨(rfl | hx1), hx2⟩
            · exact absurd (List.mem_cons.2 hx2) hnb
            · tauto
        · have hba : b < a := lt_of_le_of_ne hge (fun h => hab h.symm)
          have hstep : mergeInter (a :: as) (b :: bs) = mergeInter (a :: as) bs := by
            have : ¬ a < b := by omega
            simp [mergeInter, hab, this]
          have hna : b ∉ a :: as := by
            intro hmem
            rcases List.mem_cons.1 hmem with rfl | hmem
            · omega
            · have := h1.1 b hmem; omega
          rw [hstep, ih ((a :: as).length + bs.length) (by simp at hn ⊢; omega)
            (List.sorted_cons.2 h1) h2.2 rfl]
          simp only [List.mem_cons]
          constructor
          · rintro ⟨hx1, hx2⟩; tauto
          · rintro ⟨hx1, (rfl | hx2)⟩
            · exact absurd (List.mem_cons.2 hx1) hna
            · tauto

theorem mergeInter_self (l : List Nat) : mergeInter l l = l := by
  induction l with
  | nil => simp [mergeInter]
  | cons a t ih => simp [mergeInter, ih]

theorem mem_intersect (p1 p2 : List Nat) (x : Nat) :
    x ∈ intersect p1 p2 ↔ x ∈ p1 ∧ x ∈ p2 := by
  unfold intersect
  rw [mem_mergeInter (pySorted_sorted p1) (pySorted_sorted p2), mem_pySorted, mem_pySorted]

theorem intersect_comm (p1 p2 : List Nat) : intersect p1 p2 = intersect p2 p1 :=
  mergeInter_comm _ _

theorem intersect_self (l : List Nat) : intersect l l = pySorted l :=
  mergeInter_self _

/-! ### Key-predicate filters (the dict comprehension loops) -/

theorem lookupPost_filter_key {α : Type} (q : String × α → Bool) (p : String → Bool)
    (hq : ∀ e, q e = p e.1) (d : List (String × α)) (t : String) :
    lookupPost (d.filter q) t = if p t then lookupPost d t else none := by
  induction d with
  | nil => cases hp : p t <;> simp [lookupPost, hp]
  | cons e rest ih =>
      obtain ⟨k, v⟩ := e
      by_cases hk : k = t
      · subst hk
        cases hp : p k <;>
          simp [List.filter_cons, hq (k, v), hp, lookupPost, ih]
      · cases hp : p k <;>
          simp [List.filter_cons, hq (k, v), hp, lookupPost, hk, ih]

theorem mem_keysOf_filter_key {α : Type} (q : String × α → Bool) (p : String → Bool)
    (hq : ∀ e, q e = p e.1) (d : List (String × α)) (t : String) :
    t ∈ keysOf (d.filter q) ↔ t ∈ keysOf d ∧ p t = true := by
  rw [← lookupPost_isSome_iff, lookupPost_filter_key q p hq, ← lookupPost_isSome_iff]
  cases hp : p t <;> simp

theorem length_filter_mono {α : Type} (p q : α → Bool) (l : List α)
    (h : ∀ a, q a = true → p a = true) :
    (l.filter q).length ≤ (l.filter p).length := by
  induction l with
  | nil => simp
  | cons a t ih =>
      rw [List.filter_cons, List.filter_cons]
      cases hq : q a
      · cases hp : p a
        · simp only [Bool.false_eq_true, if_false]
          exact ih
        · simp only [Bool.false_eq_true, if_false, if_pos rfl, List.length_cons]
          exact le_trans ih (Nat.le_succ _)
      · rw [h a hq]
        simp only [if_pos rfl, List.length_cons]
        exact Nat.succ_le_succ ih

/-! ### Folds whose key is an image under a function (case fold, stemming) -/

theorem lookupPost_map_values {α β : Type} (gv : α → β)
    (d : List (String × α)) (t : String) :
    lookupPost (d.map (fun e => (e.1, gv e.2))) t = (lookupPost d t).map gv := by
  induction d with
  | nil => simp [lookupPost]
  | cons e rest ih =>
      obtain ⟨k, v⟩ := e
      by_cases hk : k = t <;> simp [lookupPost, hk, ih]

theorem keysOf_map_values {α β : Type} (gv : α → β) (d : List (String × α)) :
    keysOf (d.map (fun e => (e.1, gv e.2))) = keysOf d := by
  induction d with
  | nil => rfl
  | cons e rest ih =>
      simp only [List.map_cons, keysOf] at ih ⊢
      rw [ih]

theorem foldl_extendPost_gkey_lookup {P : Type} (g : String → String)
    (L : List (String × List P)) :
    ∀ (f0 : List (String × List P)) (u : String),
      (lookupPost (L.foldl (fun f e => extendPost (g e.1) e.2 f) f0) u).getD [] =
        (lookupPost f0 u).getD [] ++
          ((L.filter (fun e => g e.1 = u)).map Prod.snd).flatten := by
  induction L with
  | nil => simp
  | cons e rest ih =>
      intro f0 u
      obtain ⟨k, ps⟩ := e
      simp only [List.foldl_cons, ih]
      rw [lookupPost_extendPost]
      by_cases hk : g k = u
      · subst hk
        simp [List.filter_cons]
      · simp [List.filter_cons, hk, Ne.symm hk]

theorem foldl_extendPost_gkey_keys {P : Type} (g : String → String)
    (L : List (String × List P)) :
    ∀ (f0 : List (String × List P)) (u : String),
      u ∈ keysOf (L.foldl (fun f e => extendPost (g e.1) e.2 f) f0) ↔
        u ∈ keysOf f0 ∨ u ∈ L.map (fun e => g e.1) := by
  induction L with
  | nil => simp
  | cons e rest ih =>
      intro f0 u
      simp only [List.foldl_cons, ih, mem_keysOf_extendPost, List.map_cons,
        List.mem_cons]
      tauto

theorem foldl_extendPost_gkey_keys_nodup {P : Type} (g : String → String)
    (L : List (String × List P)) :
    ∀ (f0 : List (String × List P)), (keysOf f0).Nodup →
      (keysOf (L.foldl (fun f e => extendPost (g e.1) e.2 f) f0)).Nodup := by
  induction L with
  | nil => exact fun f0 h => h
  | cons e rest ih =>
      intro f0 h
      exact ih _ (keysOf_nodup_extendPost (g e.1) e.2 h)

theorem foldl_extendPost_gkey_length {P : Type} (g : String → String)
    (L : List (String × List P)) :
    ∀ (f0 : List (String × List P)),
      (L.foldl (fun f e => extendPost (g e.1) e.2 f) f0).length ≤
        f0.length + L.length := by
  induction L with
  | nil => simp
  | cons e rest ih =>
      intro f0
      calc (List.foldl (fun f e => extendPost (g e.1) e.2 f)
              (extendPost (g e.1) e.2 f0) rest).length
          ≤ (extendPost (g e.1) e.2 f0).length + rest.length := ih _
        _ ≤ (f0.length + 1) + rest.length :=
            Nat.add_le_add_right (length_extendPost _ _ _) _
        _ = f0.length + (e :: rest).length := by simp; omega

/-! ## Claim theorems -/

/-- C2: the two-list AND intersection contains exactly the docIDs present
in both lists (numeric comparison) and is commutative as a sequence for
all inputs.  Self-intersection returns the sorted version of the list —
so `intersect L L = L` holds exactly when `L` is already ascending; the
claim's unconditional idempotence fails (see the counterexample). -/
theorem intersect_spec (A B L : List Nat) (x : Nat) :
    (x ∈ intersect A B ↔ x ∈ A ∧ x ∈ B)
    ∧ intersect A B = intersect B A
    ∧ intersect L L = pySorted L
    ∧ (List.Sorted (· ≤ ·) L → intersect L L = L) := by
  refine ⟨mem_intersect A B x, intersect_comm A B, intersect_self L, fun h => ?_⟩
  rw [intersect_self L, pySorted_eq_self h]

/-- C2 witness at concrete inputs. -/
theorem intersect_spec_witness :
    (2 ∈ intersect [1, 2] [2, 3] ↔ 2 ∈ ([1, 2] : List Nat) ∧ 2 ∈ ([2, 3] : List Nat))
    ∧ intersect [1, 2] [2, 3] = intersect [2, 3] [1, 2]
    ∧ intersect [1, 2] [1, 2] = pySorted [1, 2]
    ∧ intersect [1, 2] [1, 2] = [1, 2] := by
  have h := intersect_spec [1, 2] [2, 3] [1, 2] 2
  exact ⟨h.1, h.2.1, h.2.2.1, h.2.2.2 (by decide)⟩

/-- C2 counterexample: on the unsorted list `[2, 1]`, `intersect(L, L)`
returns the sorted list `[1, 2]`, not `L` unchanged. -/
theorem intersect_self_not_id :
    intersect [2, 1] [2, 1] = [1, 2] ∧ intersect [2, 1] [2, 1] ≠ [2, 1] := by
  have h : intersect [2, 1] [2, 1] = [1, 2] := by
    rw [intersect_self]
    decide
  refine ⟨h, ?_⟩
  rw [h]
  decide

/-- C4: `remove_numeric_terms` drops a term exactly when the whole term
matches `^[0-9]+$`; any other term keeps its postings unchanged, in
particular the mixed terms `"abc123"` and `"123abc"`. -/
theorem remove_numeric_terms_exact (index : PIndex) (t : String) :
    (fullmatchDigits t = true ↔ specNumericRe t)
    ∧ lookupPost (remove_numeric_terms index) t =
        (if fullmatchDigits t then none else lookupPost index t)
    ∧ (t ∈ keysOf (remove_numeric_terms index) ↔
        t ∈ keysOf index ∧ ¬ specNumericRe t)
    ∧ lookupPost (remove_numeric_terms index) "abc123" = lookupPost index "abc123"
    ∧ lookupPost (remove_numeric_terms index) "123abc" = lookupPost index "123abc" := by
  have hchar : ∀ c : Char, Char.isDigit c = true ↔ '0' ≤ c ∧ c ≤ '9' := by
    intro c
    rw [show Char.isDigit c = ('0' ≤ c && c ≤ '9') from rfl, Bool.and_eq_true,
      decide_eq_true_iff, decide_eq_true_iff]
  have hiff : ∀ s : String, fullmatchDigits s = true ↔ specNumericRe s := by
    intro s
    unfold fullmatchDigits specNumericRe
    rw [Bool.and_eq_true, List.all_eq_true]
    constructor
    · rintro ⟨h1, h2⟩
      refine ⟨?_, fun c hc => (hchar c).1 (h2 c hc)⟩
      intro hnil
      rw [hnil] at h1
      simp at h1
    · rintro ⟨h1, h2⟩
      refine ⟨?_, fun c hc => (hchar c).2 (h2 c hc)⟩
      obtain ⟨c, cs, hd⟩ := List.exists_cons_of_ne_nil h1
      rw [hd]
      rfl
  have hlook : ∀ s : String, lookupPost (remove_numeric_terms index) s =
      (if fullmatchDigits s then none else lookupPost index s) := by
    intro s
    rw [show remove_numeric_terms index = index.filter (fun e => !fullmatchDigits e.1) from rfl,
      lookupPost_filter_key (fun e => !fullmatchDigits e.1) (fun s => !fullmatchDigits s)
        (fun e => rfl)]
    cases hd : fullmatchDigits s <;> simp
  refine ⟨hiff t, hlook t, ?_, ?_, ?_⟩
  · rw [show remove_numeric_terms index = index.filter (fun e => !fullmatchDigits e.1) from rfl,
      mem_keysOf_filter_key (fun e => !fullmatchDigits e.1) (fun s => !fullmatchDigits s)
        (fun e => rfl)]
    rw [← hiff t]
    cases hd : fullmatchDigits t <;> simp
  · rw [hlook "abc123", if_neg (by decide)]
  · rw [hlook "123abc", if_neg (by decide)]

/-- C5: the 150-word stopword filter keeps at most as many terms as the
30-word filter, which keeps at most as many as the input; the 30-word set
is contained in the 150-word set, so every term removed by the 30-word
filter is removed by the 150-word filter as well. -/
theorem stopword_monotonicity (index : PIndex) :
    (compress_index_150_stopwords index).length ≤
        (compress_index_30_stopwords index).length
    ∧ (compress_index_30_stopwords index).length ≤ index.length
    ∧ (∀ s ∈ STOPWORDS_30, s ∈ STOPWORDS_150)
    ∧ (∀ t, t ∈ keysOf index → t ∉ keysOf (compress_index_30_stopwords index) →
        t ∉ keysOf (compress_index_150_stopwords index)) := by
  have hsub : ∀ s ∈ STOPWORDS_30, s ∈ STOPWORDS_150 := by decide
  have hkeep : ∀ s : String, (!(STOPWORDS_150.contains s)) = true →
      (!(STOPWORDS_30.contains s)) = true := by
    intro s hs
    cases h30 : STOPWORDS_30.contains s
    · rfl
    · exfalso
      have hmem : s ∈ STOPWORDS_150 := hsub s (List.elem_iff.mp h30)
      have h150 : STOPWORDS_150.contains s = true := List.elem_iff.mpr hmem
      rw [h150] at hs
      simp at hs
  refine ⟨?_, List.length_filter_le _ _, hsub, ?_⟩
  · exact length_filter_mono _ _ index (fun e he => hkeep (pyLower e.1) he)
  · intro t htidx ht30
    rw [show compress_index_30_stopwords index =
        index.filter (fun e => !(STOPWORDS_30.contains (pyLower e.1))) from rfl,
      mem_keysOf_filter_key (fun e => !(STOPWORDS_30.contains (pyLower e.1)))
        (fun s => !(STOPWORDS_30.contains (pyLower s))) (fun e => rfl)] at ht30
    rw [show compress_index_150_stopwords index =
        index.filter (fun e => !(STOPWORDS_150.contains (pyLower e.1))) from rfl,
      mem_keysOf_filter_key (fun e => !(STOPWORDS_150.contains (pyLower e.1)))
        (fun s => !(STOPWORDS_150.contains (pyLower s))) (fun e => rfl)]
    intro ht150
    exact ht30 ⟨htidx, hkeep _ ht150.2⟩

/-- C5 witness: the stopword `"the"` is removed by both filters. -/
theorem stopword_monotonicity_witness :
    "the" ∉ keysOf (compress_index_150_stopwords [("the", [1])]) :=
  (stopword_monotonicity [("the", [1])]).2.2.2 "the" (by decide) (by decide)

/-- C8 (amended): single-term lookup trims surrounding whitespace only —
it never lowercases, whatever index it is given — and totally returns the
trimmed term's postings when present and `[]` when absent, never an
error. -/
theorem single_term_lookup (index : PIndex) (term : String) :
    processSingleTermQuery index term = (lookupPost index (pyStrip term)).getD []
    ∧ (pyStrip term ∈ keysOf index ∨ processSingleTermQuery index term = [])
    ∧ (∀ ps, lookupPost index (pyStrip term) = some ps →
        processSingleTermQuery index term = ps) := by
  refine ⟨rfl, ?_, ?_⟩
  · by_cases h : pyStrip term ∈ keysOf index
    · exact Or.inl h
    · refine Or.inr ?_
      rw [show processSingleTermQuery index term = (lookupPost index (pyStrip term)).getD [] from rfl,
        (lookupPost_eq_none_iff index (pyStrip term)).2 h]
      rfl
  · intro ps hps
    rw [show processSingleTermQuery index term = (lookupPost index (pyStrip term)).getD [] from rfl,
      hps]
    rfl

/-- C8 witness at a concrete index and term. -/
theorem single_term_lookup_witness :
    processSingleTermQuery [("cat", [1, 2])] " cat " =
        (lookupPost [("cat", [1, 2])] (pyStrip " cat ")).getD []
    ∧ processSingleTermQuery [("cat", [1, 2])] " cat " = [1, 2] := by
  have h := single_term_lookup [("cat", [1, 2])] " cat "
  exact ⟨h.1, h.2.2 [1, 2] (by decide)⟩

/-- C8 counterexample: on a case-folded index, the code's lookup does not
lowercase the query — querying `"A"` against `case_fold \x7b"A": [1]\x7d`
returns `[]`, while the spec's conditional-lowercasing lookup returns
`[1]`. -/
theorem single_term_lookup_no_casefold :
    processSingleTermQuery (case_fold [("A", [1])]) "A" = []
    ∧ specLookup true (case_fold [("A", [1])]) "A" = [1] := by
  decide

/-- C9 (amended): `build_compressed_index` of Project1 is exactly the
ordered composition case fold → numeric filter → 30 stopwords → 150
stopwords → stemming of the independently invocable stage functions; the
top-level `src/Inverted_Index.py` variant is the composition of only the
last four stages, omitting case fold (see the counterexample). -/
theorem build_pipeline_stage_composition (stem : String → String) (index : PIndex) :
    build_compressed_index stem index =
      apply_stemming stem (compress_index_150_stopwords
        (compress_index_30_stopwords (remove_numeric_terms (case_fold index))))
    ∧ build_compressed_index_root stem index =
      apply_stemming stem (compress_index_150_stopwords
        (compress_index_30_stopwords (remove_numeric_terms index))) :=
  ⟨rfl, rfl⟩

/-- C9 counterexample: the root file's `build_compressed_index` is not
the five-stage composition — on `\x7b"B": [2], "b": [1]\x7d` with the
identity stemmer the five-stage chain merges the two case variants while
the root pipeline keeps them apart. -/
theorem build_root_omits_case_fold :
    build_compressed_index_root (fun s => s) [("B", [2]), ("b", [1])] ≠
      apply_stemming (fun s => s) (compress_index_150_stopwords
        (compress_index_30_stopwords
          (remove_numeric_terms (case_fold [("B", [2]), ("b", [1])])))) := by
  decide

/-- Shared shape of `case_fold` and `apply_stemming`: membership in the
postings of an output key of the fold-then-map construction. -/
theorem foldl_gkey_map_mem {P : Type} [DecidableEq P] (g : String → String)
    (gv : List P → List P) (hgv : ∀ (l : List P) (x : P), x ∈ gv l ↔ x ∈ l)
    (index : List (String × List P)) (u : String) (x : P) :
    x ∈ (lookupPost ((index.foldl (fun f e => extendPost (g e.1) e.2 f) []).map
        (fun e => (e.1, gv e.2))) u).getD [] ↔
      ∃ e ∈ index, g e.1 = u ∧ x ∈ e.2 := by
  rw [lookupPost_map_values]
  cases hlu : lookupPost (index.foldl (fun f e => extendPost (g e.1) e.2 f) []) u with
  | none =>
      simp only [Option.map_none', Option.getD_none, List.not_mem_nil, false_iff]
      rintro ⟨e, he, hg, hx⟩
      have hk : u ∈ keysOf (index.foldl (fun f e => extendPost (g e.1) e.2 f) []) := by
        rw [foldl_extendPost_gkey_keys]
        exact Or.inr (List.mem_map.mpr ⟨e, he, hg⟩)
      rw [← lookupPost_isSome_iff, hlu] at hk
      simp at hk
  | some ps =>
      simp only [Option.map_some', Option.getD_some]
      rw [hgv]
      have hps := foldl_extendPost_gkey_lookup g index [] u
      rw [hlu] at hps
      simp only [lookupPost, Option.getD_some, Option.getD_none, List.nil_append] at hps
      rw [hps]
      simp only [List.mem_flatten, List.mem_map, List.mem_filter, decide_eq_true_iff]
      constructor
      · rintro ⟨l, ⟨e, ⟨hein, hgu⟩, rfl⟩, hx⟩
        exact ⟨e, hein, hgu, hx⟩
      · rintro ⟨e, he, hg, hx⟩
        exact ⟨e.2, ⟨e, ⟨he, hg⟩, rfl⟩, hx⟩

/-- C6: `case_fold` yields at most as many terms as its input, and the
postings of each output term are exactly the docIDs of all input terms
lowercasing to it, deduplicated and sorted strictly ascending by numeric
value. -/
theorem case_fold_correct (index : PIndex) (u : String) (d : Nat) :
    (case_fold index).length ≤ index.length
    ∧ (d ∈ (lookupPost (case_fold index) u).getD [] ↔
        ∃ e ∈ index, pyLower e.1 = u ∧ d ∈ e.2)
    ∧ List.Sorted (· < ·) ((lookupPost (case_fold index) u).getD []) := by
  refine ⟨?_, ?_, ?_⟩
  · rw [show case_fold index =
        (index.foldl (fun f e => extendPost (pyLower e.1) e.2 f) []).map
          (fun e => (e.1, pySorted (pyDedup e.2))) from rfl, List.length_map]
    simpa using foldl_extendPost_gkey_length pyLower index []
  · exact foldl_gkey_map_mem pyLower (fun l => pySorted (pyDedup l))
      (fun l x => by rw [mem_pySorted, mem_pyDedup]) index u d
  · rw [show case_fold index =
        (index.foldl (fun f e => extendPost (pyLower e.1) e.2 f) []).map
          (fun e => (e.1, pySorted (pyDedup e.2))) from rfl,
      lookupPost_map_values (fun l => pySorted (pyDedup l))
        (index.foldl (fun f e => extendPost (pyLower e.1) e.2 f) []) u]
    cases hlu : lookupPost (index.foldl (fun f e => extendPost (pyLower e.1) e.2 f) []) u with
    | none => simp
    | some ps =>
        simp only [Option.map_some', Option.getD_some]
        exact sorted_lt_of_sorted_le_nodup (pySorted_sorted _)
          (pySorted_nodup (pyDedup_nodup _))

/-- C7: stemming merge yields at most as many terms as its input; output
keys are unique, every input term's stem is an output key, and the
postings of an output key are exactly the union of the docIDs of all
input terms stemming to it, with duplicates removed. -/
theorem apply_stemming_correct (stem : String → String) (index : PIndex)
    (u : String) (d : Nat) :
    (apply_stemming stem index).length ≤ index.length
    ∧ (d ∈ (lookupPost (apply_stemming stem index) u).getD [] ↔
        ∃ e ∈ index, stem e.1 = u ∧ d ∈ e.2)
    ∧ ((lookupPost (apply_stemming stem index) u).getD []).Nodup
    ∧ (keysOf (apply_stemming stem index)).Nodup
    ∧ (u ∈ keysOf (apply_stemming stem index) ↔ ∃ e ∈ index, stem e.1 = u) := by
  have hrfl : apply_stemming stem index =
      (index.foldl (fun f e => extendPost (stem e.1) e.2 f) []).map
        (fun e => (e.1, pyDedup e.2)) := rfl
  refine ⟨?_, ?_, ?_, ?_, ?_⟩
  · rw [hrfl, List.length_map]
    simpa using foldl_extendPost_gkey_length stem index []
  · exact foldl_gkey_map_mem stem pyDedup (fun l x => mem_pyDedup) index u d
  · rw [hrfl, lookupPost_map_values]
    cases hlu : lookupPost (index.foldl (fun f e => extendPost (stem e.1) e.2 f) []) u with
    | none => simp
    | some ps =>
        simp only [Option.map_some', Option.getD_some]
        exact pyDedup_nodup ps
  · rw [hrfl]
    have := keysOf_map_values (fun l : List Nat => pyDedup l)
      (index.foldl (fun f e => extendPost (stem e.1) e.2 f) [])
    rw [this]
    exact foldl_extendPost_gkey_keys_nodup stem index [] (by simp [keysOf])
  · rw [hrfl]
    have := keysOf_map_values (fun l : List Nat => pyDedup l)
      (index.foldl (fun f e => extendPost (stem e.1) e.2 f) [])
    rw [this, foldl_extendPost_gkey_keys]
    simp [keysOf, List.mem_map]

/-! ### src/SPIMI.py lemmas -/

theorem lookupPost_spimiInsert (term docId : String)
    (idx : List (String × List String)) (s : String) :
    (lookupPost (spimiInsert term docId idx) s).getD [] =
      if s = term then
        (if docId ∈ (lookupPost idx s).getD [] then (lookupPost idx s).getD []
         else (lookupPost idx s).getD [] ++ [docId])
      else (lookupPost idx s).getD [] := by
  induction idx with
  | nil =>
      by_cases h : s = term
      · subst h; simp [spimiInsert, lookupPost]
      · simp [spimiInsert, lookupPost, h, Ne.symm h]
  | cons e rest ih =>
      obtain ⟨k, ps⟩ := e
      by_cases hk : k = term
      · subst hk
        by_cases hs : s = k
        · subst hs; simp [spimiInsert, lookupPost]
        · simp [spimiInsert, lookupPost, hs, Ne.symm hs]
      · by_cases hs : s = k
        · subst hs
          simp [spimiInsert, lookupPost, hk, Ne.symm hk]
        · simp [spimiInsert, lookupPost, hk, hs, Ne.symm hs, ih]

theorem mem_condAppend_self {α : Type} [DecidableEq α] (a : α) (l : List α) :
    a ∈ (if a ∈ l then l else l ++ [a]) := by
  by_cases h : a ∈ l <;> simp [h]

theorem lookupPost_spimiAddDoc (docId : String) (tokens : List String) :
    ∀ (idx : List (String × List String)) (s : String),
      (lookupPost (spimiAddDoc docId tokens idx) s).getD [] =
        if s ≠ "" ∧ s ∈ tokens then
          (if docId ∈ (lookupPost idx s).getD [] then (lookupPost idx s).getD []
           else (lookupPost idx s).getD [] ++ [docId])
        else (lookupPost idx s).getD [] := by
  induction tokens with
  | nil => simp [spimiAddDoc]
  | cons tok rest ih =>
      intro idx s
      have hstep : spimiAddDoc docId (tok :: rest) idx =
          spimiAddDoc docId rest (if tok = "" then idx else spimiInsert tok docId idx) := by
        simp only [spimiAddDoc, List.foldl_cons]
      rw [hstep]
      by_cases htok : tok = ""
      · subst htok
        rw [if_pos rfl, ih idx s]
        by_cases hse : s = ""
        · simp [hse]
        · by_cases hsr : s ∈ rest
          · simp [hse, hsr]
          · have : s ∉ ("" : String) :: rest := by
              intro hmem
              rcases List.mem_cons.1 hmem with h | h
              · exact hse h
              · exact hsr h
            simp [hse, hsr, this]
      · rw [if_neg htok, ih _ s, lookupPost_spimiInsert]
        by_cases hst : s = tok
        · subst hst
          have hse : ¬ s = "" := htok
          by_cases hsr : s ∈ rest
          · simp only [hse, hsr, and_true, not_false_iff, true_and, if_pos rfl,
              ne_eq, List.mem_cons, true_or, if_true]
            by_cases hd : docId ∈ (lookupPost idx s).getD []
            · simp [hd]
            · simp [hd, mem_condAppend_self]
          · simp only [hse, hsr, not_false_iff, if_pos rfl, ne_eq, List.mem_cons,
              true_or, and_false, if_false]
            simp [hse]
        · rw [if_neg hst]
          by_cases hse : s = ""
          · simp [hse]
          · by_cases hsr : s ∈ rest
            · simp [hse, hsr]
            · have : s ∉ tok :: rest := by
                intro hmem
                rcases List.mem_cons.1 hmem with h | h
                · exact hst h
                · exact hsr h
              simp [hse, hsr, this]

theorem SPIMI_foldl (docs : List (String × List String)) :
    ∀ (idx : List (String × List String)) (t : String),
      (lookupPost (docs.foldl (fun a dd => spimiAddDoc dd.1 dd.2 a) idx) t).getD [] =
        ((docs.filter (fun dd => !(t == "") && dd.2.contains t)).map Prod.fst).foldl
          (fun c i => if i ∈ c then c else c ++ [i]) ((lookupPost idx t).getD [] : List String) := by
  induction docs with
  | nil => simp
  | cons dd rest ih =>
      intro idx t
      have hcond : ((!(t == "") && dd.2.contains t) = true) ↔ (t ≠ "" ∧ t ∈ dd.2) := by
        simp [List.elem_iff]
      rw [List.foldl_cons, ih, List.filter_cons]
      by_cases hc : t ≠ "" ∧ t ∈ dd.2
      · rw [if_pos (hcond.2 hc), List.map_cons, List.foldl_cons,
          lookupPost_spimiAddDoc dd.1 dd.2 idx t, if_pos hc]
      · rw [if_neg (fun h => hc (hcond.1 h)),
          lookupPost_spimiAddDoc dd.1 dd.2 idx t, if_neg hc]

/-- C10: in the index built by `SPIMI`, every term's postings list holds
each docID at most once, the docIDs being exactly those of the documents
containing the term, in the order those documents were first
encountered. -/
theorem SPIMI_postings_unique_ordered (docs : List (String × List String)) (t : String) :
    (lookupPost (SPIMI docs) t).getD [] =
      pyDedup ((docs.filter (fun dd => !(t == "") && dd.2.contains t)).map Prod.fst)
    ∧ ((lookupPost (SPIMI docs) t).getD []).Nodup := by
  have h : (lookupPost (SPIMI docs) t).getD [] =
      pyDedup ((docs.filter (fun dd => !(t == "") && dd.2.contains t)).map Prod.fst) := by
    rw [show SPIMI docs = docs.foldl (fun a dd => spimiAddDoc dd.1 dd.2 a) [] from rfl,
      SPIMI_foldl docs [] t]
    rfl
  exact ⟨h, h ▸ pyDedup_nodup _⟩

/-! ### Spider block lemmas -/

theorem filter_key_map_pair {β : Type} (g : String → β) (l : List String)
    (hl : l.Nodup) (t : String) :
    (l.map (fun s => (s, g s))).filter (fun e => e.1 = t) =
      if t ∈ l then [(t, g t)] else [] := by
  induction l with
  | nil => simp
  | cons a rest ih =>
      rw [List.nodup_cons] at hl
      simp only [List.map_cons, List.filter_cons]
      by_cases ha : a = t
      · subst ha
        rw [if_pos (by simp)]
        have hrest : (rest.map (fun s => (s, g s))).filter (fun e => e.1 = a) = [] := by
          rw [List.filter_eq_nil_iff]
          intro e he
          obtain ⟨s, hs, rfl⟩ := List.mem_map.1 he
          simp only [decide_eq_true_iff]
          intro h
          exact hl.1 (h ▸ hs)
        rw [hrest, if_pos (List.mem_cons_self a rest)]
      · rw [if_neg (by simpa using ha), ih hl.2]
        by_cases hm : t ∈ rest
        · rw [if_pos hm, if_pos (List.mem_cons.2 (Or.inr hm))]
        · rw [if_neg hm, if_neg (by
            intro h
            rcases List.mem_cons.1 h with h | h
            · exact ha h.symm
            · exact hm h)]

theorem counter_keys (tokens : List String) :
    (counter tokens).map Prod.fst = pyDedup tokens := by
  unfold counter
  rw [List.map_map]
  exact List.map_id _

theorem counter_filter (tokens : List String) (t : String) :
    (counter tokens).filter (fun e => e.1 = t) =
      if t ∈ tokens then [(t, tokens.count t)] else [] := by
  unfold counter
  rw [filter_key_map_pair (fun s => tokens.count s) (pyDedup tokens) (pyDedup_nodup tokens) t]
  by_cases hm : t ∈ tokens
  · rw [if_pos (mem_pyDedup.2 hm), if_pos hm]
  · rw [if_neg (fun h => hm (mem_pyDedup.1 h)), if_neg hm]

theorem foldl_addPost_lookup (docId : Nat) (url : String) (L : List (String × Nat)) :
    ∀ (b : Block) (t : String),
      (lookupPost (L.foldl (fun b e => addPost e.1 ⟨docId, e.2, url⟩ b) b) t).getD [] =
        (lookupPost b t).getD [] ++
          (L.filter (fun e => e.1 = t)).map (fun e => (⟨docId, e.2, url⟩ : Posting)) := by
  induction L with
  | nil => simp
  | cons e rest ih =>
      intro b t
      obtain ⟨k, freq⟩ := e
      simp only [List.foldl_cons, ih]
      rw [show addPost k (⟨docId, freq, url⟩ : Posting) b =
        extendPost k [⟨docId, freq, url⟩] b from rfl, lookupPost_extendPost]
      by_cases hk : k = t
      · subst hk
        simp [List.filter_cons]
      · simp [List.filter_cons, hk, Ne.symm hk]

theorem foldl_addPost_keys (docId : Nat) (url : String) (L : List (String × Nat)) :
    ∀ (b : Block) (u : String),
      u ∈ keysOf (L.foldl (fun b e => addPost e.1 ⟨docId, e.2, url⟩ b) b) ↔
        u ∈ keysOf b ∨ u ∈ L.map Prod.fst := by
  induction L with
  | nil => simp
  | cons e rest ih =>
      intro b u
      simp only [List.foldl_cons]
      rw [ih]
      rw [show addPost e.1 (⟨docId, e.2, url⟩ : Posting) b =
        extendPost e.1 [⟨docId, e.2, url⟩] b from rfl, mem_keysOf_extendPost]
      simp only [List.map_cons, List.mem_cons]
      tauto

theorem foldl_addPost_keys_nodup (docId : Nat) (url : String) (L : List (String × Nat)) :
    ∀ (b : Block), (keysOf b).Nodup →
      (keysOf (L.foldl (fun b e => addPost e.1 ⟨docId, e.2, url⟩ b) b)).Nodup := by
  induction L with
  | nil => exact fun b h => h
  | cons e rest ih =>
      intro b h
      exact ih _ (keysOf_nodup_extendPost e.1 _ h)

theorem extendPost_snd_ne_nil {P : Type} (t : String) (ps : List P) (hps : ps ≠ [])
    {d : List (String × List P)} (hd : ∀ e ∈ d, e.2 ≠ []) :
    ∀ e ∈ extendPost t ps d, e.2 ≠ [] := by
  induction d with
  | nil =>
      intro e he
      simp only [extendPost, List.mem_singleton] at he
      subst he
      exact hps
  | cons f rest ih =>
      obtain ⟨k, old⟩ := f
      intro e he
      by_cases hk : k = t
      · simp only [extendPost, if_pos hk, List.mem_cons] at he
        rcases he with rfl | he
        · simp only [ne_eq, List.append_eq_nil]
          intro hcon
          exact hps hcon.2
        · exact hd e (List.mem_cons_of_mem _ he)
      · simp only [extendPost, if_neg hk, List.mem_cons] at he
        rcases he with rfl | he
        · exact hd (k, old) (List.mem_cons_self _ _)
        · exact ih (fun f hf => hd f (List.mem_cons_of_mem _ hf)) e he

theorem foldl_addPost_snd_ne_nil (docId : Nat) (url : String) (L : List (String × Nat)) :
    ∀ (b : Block), (∀ e ∈ b, e.2 ≠ []) →
      ∀ e ∈ L.foldl (fun b e => addPost e.1 ⟨docId, e.2, url⟩ b) b, e.2 ≠ [] := by
  induction L with
  | nil => exact fun b h => h
  | cons f rest ih =>
      intro b h
      exact ih _ (extendPost_snd_ne_nil f.1 _ (by simp) h)

theorem spimiIngest_lookup (tokens : List String) (docId : Nat) (url : String)
    (b : Block) (t : String) :
    (lookupPost (spimiIngest tokens docId url b) t).getD [] =
      (lookupPost b t).getD [] ++
        (if t ∈ tokens then [⟨docId, tokens.count t, url⟩] else []) := by
  unfold spimiIngest
  rw [foldl_addPost_lookup docId url (counter tokens) b t, counter_filter]
  by_cases hm : t ∈ tokens
  · rw [if_pos hm, if_pos hm]
    rfl
  · rw [if_neg hm, if_neg hm]
    rfl

theorem spimiIngest_keys (tokens : List String) (docId : Nat) (url : String)
    (b : Block) (u : String) :
    u ∈ keysOf (spimiIngest tokens docId url b) ↔ u ∈ keysOf b ∨ u ∈ tokens := by
  unfold spimiIngest
  rw [foldl_addPost_keys docId url (counter tokens) b u, counter_keys, mem_pyDedup]

theorem spimiIngest_wf (tokens : List String) (docId : Nat) (url : String)
    {b : Block} (hb : BlockWF b) : BlockWF (spimiIngest tokens docId url b) :=
  ⟨foldl_addPost_keys_nodup docId url (counter tokens) b hb.1,
   foldl_addPost_snd_ne_nil docId url (counter tokens) b hb.2⟩

/-- C3: one ingest triggers a flush exactly when the post-ingest active
block holds at least `T` distinct terms (the threshold is checked once
per ingested document); immediately after a flush the active block is
empty; after any ingest the active block holds fewer than `T` terms (so
between flushes the distinct-term count never exceeds `T`); and when no
flush triggers, the state simply carries the grown block. -/
theorem block_threshold_flush (T : Nat) (hT : 0 < T) (tokens : List String)
    (docId : Nat) (url : String) (st : SpimiState)
    (hnodup : (keysOf st.inverted_block).Nodup) :
    (((add_to_spimi_block T tokens docId url st).flushed =
        st.flushed ++ [spimiIngest tokens docId url st.inverted_block] ∧
      (add_to_spimi_block T tokens docId url st).inverted_block = []) ↔
      T ≤ (spimiIngest tokens docId url st.inverted_block).length)
    ∧ (add_to_spimi_block T tokens docId url st).inverted_block.length < T
    ∧ (keysOf (spimiIngest tokens docId url st.inverted_block)).Nodup
    ∧ ((spimiIngest tokens docId url st.inverted_block).length < T →
        add_to_spimi_block T tokens docId url st =
          { st with inverted_block := spimiIngest tokens docId url st.inverted_block }) := by
  have hwf : (keysOf (spimiIngest tokens docId url st.inverted_block)).Nodup :=
    foldl_addPost_keys_nodup docId url (counter tokens) st.inverted_block hnodup
  by_cases hle : T ≤ (spimiIngest tokens docId url st.inverted_block).length
  · refine ⟨⟨fun _ => hle, fun _ => ?_⟩, ?_, hwf, fun hlt => absurd hle (by omega)⟩
    · constructor <;> simp [add_to_spimi_block, flush_block, hle]
    · simp only [add_to_spimi_block, if_pos hle, flush_block, List.length_nil]
      exact hT
  · refine ⟨⟨fun h => ?_, fun h => absurd h hle⟩, ?_, hwf, fun _ => ?_⟩
    · exfalso
      have hfl := h.1
      simp only [add_to_spimi_block, if_neg hle] at hfl
      have := congrArg List.length hfl
      simp at this
    · simp only [add_to_spimi_block, if_neg hle]
      omega
    · simp only [add_to_spimi_block, if_neg hle]

/-- C3 witness at the source's threshold `BLOCK_TERM_LIMIT = 4000`  on a
small document. -/
theorem block_threshold_flush_witness :
    (add_to_spimi_block BLOCK_TERM_LIMIT ["cat", "dog"] 1 "u" initSpider).inverted_block.length <
      BLOCK_TERM_LIMIT :=
  (block_threshold_flush BLOCK_TERM_LIMIT (by decide) ["cat", "dog"] 1 "u" initSpider
    (by decide)).2.1

/-! ### The SPIMI run, the merge, and build equivalence -/

theorem streamOf_add_to_spimi_block (T : Nat) (tokens : List String) (docId : Nat)
    (url : String) (st : SpimiState) (t : String) :
    streamOf (add_to_spimi_block T tokens docId url st) t =
      streamOf st t ++ (if t ∈ tokens then [⟨docId, tokens.count t, url⟩] else []) := by
  unfold add_to_spimi_block
  by_cases hle : T ≤ (spimiIngest tokens docId url st.inverted_block).length
  · rw [if_pos hle]
    unfold streamOf flush_block
    simp only [List.map_append, List.map_cons, List.map_nil, List.flatten_append,
      List.flatten_cons, List.flatten_nil, List.append_nil]
    rw [spimiIngest_lookup]
    simp only [lookupPost, Option.getD_none, List.append_nil, List.append_assoc]
  · rw [if_neg hle]
    unfold streamOf
    simp only []
    rw [spimiIngest_lookup, List.append_assoc]

theorem stateWF_add_to_spimi_block (T : Nat) (tokens : List String) (docId : Nat)
    (url : String) {st : SpimiState} (h : StateWF st) :
    StateWF (add_to_spimi_block T tokens docId url st) := by
  unfold add_to_spimi_block
  by_cases hle : T ≤ (spimiIngest tokens docId url st.inverted_block).length
  · rw [if_pos hle]
    refine ⟨⟨List.nodup_nil, by intro e he; simp [flush_block] at he⟩, ?_⟩
    intro b hb
    simp only [flush_block, List.mem_append, List.mem_singleton] at hb
    rcases hb with hb | hb
    · exact h.2 b hb
    · subst hb
      exact spimiIngest_wf tokens docId url h.1
  · rw [if_neg hle]
    exact ⟨spimiIngest_wf tokens docId url h.1, h.2⟩

theorem runSpimiFrom_correct (T : Nat) (docs : List (List String × String)) :
    ∀ (i : Nat) (st : SpimiState), StateWF st →
      StateWF (runSpimiFrom T i docs st) ∧
      ∀ t, streamOf (runSpimiFrom T i docs st) t =
        streamOf st t ++ postingsSeq i docs t := by
  induction docs with
  | nil =>
      intro i st h
      exact ⟨h, fun t => by simp [runSpimiFrom, postingsSeq]⟩
  | cons d rest ih =>
      intro i st h
      have hstep := stateWF_add_to_spimi_block T d.1 (i + 1) d.2 h
      obtain ⟨hwf, hstream⟩ := ih (i + 1) _ hstep
      refine ⟨hwf, fun t => ?_⟩
      rw [show runSpimiFrom T i (d :: rest) st =
        runSpimiFrom T (i + 1) rest (add_to_spimi_block T d.1 (i + 1) d.2 st) from rfl]
      rw [hstream t, streamOf_add_to_spimi_block]
      rw [show postingsSeq i (d :: rest) t =
        (if t ∈ d.1 then [⟨i + 1, d.1.count t, d.2⟩] else []) ++ postingsSeq (i + 1) rest t
        from rfl]
      rw [List.append_assoc]

theorem filter_key_of_nodup {P : Type} (b : List (String × List P))
    (hb : (keysOf b).Nodup) (t : String) :
    ((b.filter (fun e => e.1 = t)).map Prod.snd).flatten = (lookupPost b t).getD [] := by
  induction b with
  | nil => simp [lookupPost]
  | cons e rest ih =>
      obtain ⟨k, ps⟩ := e
      simp only [keysOf, List.map_cons, List.nodup_cons] at hb
      by_cases hk : k = t
      · subst hk
        rw [List.filter_cons, if_pos (by simp)]
        have hrest : rest.filter (fun e => e.1 = k) = [] := by
          rw [List.filter_eq_nil_iff]
          intro e he
          simp only [decide_eq_true_iff]
          intro hcon
          exact hb.1 (hcon ▸ List.mem_map_of_mem Prod.fst he)
        rw [hrest]
        simp [lookupPost]
      · rw [List.filter_cons, if_neg (by simpa using hk)]
        rw [show lookupPost ((k, ps) :: rest) t = lookupPost rest t by
          simp [lookupPost, hk]]
        exact ih hb.2

theorem mergeBlocks_fold_lookup (blocks : List Block) :
    ∀ (f0 : Block), (∀ b ∈ blocks, BlockWF b) → ∀ t,
      (lookupPost (blocks.foldl (fun final block =>
          block.foldl (fun f e => extendPost e.1 e.2 f) final) f0) t).getD [] =
        (lookupPost f0 t).getD [] ++
          (blocks.map (fun b => (lookupPost b t).getD [])).flatten := by
  induction blocks with
  | nil => intro f0 _ t; simp
  | cons b rest ih =>
      intro f0 hwf t
      simp only [List.foldl_cons, List.map_cons, List.flatten_cons]
      rw [ih _ (fun x hx => hwf x (List.mem_cons_of_mem _ hx)) t,
        foldl_extendPost_lookup b f0 t,
        filter_key_of_nodup b (hwf b (List.mem_cons_self _ _)).1 t,
        List.append_assoc]

theorem mergeBlocks_lookup (blocks : List Block) (hwf : ∀ b ∈ blocks, BlockWF b)
    (t : String) :
    (lookupPost (mergeBlocks blocks) t).getD [] =
      (blocks.map (fun b => (lookupPost b t).getD [])).flatten := by
  rw [show mergeBlocks blocks = blocks.foldl (fun final block =>
      block.foldl (fun f e => extendPost e.1 e.2 f) final) [] from rfl,
    mergeBlocks_fold_lookup blocks [] hwf t]
  simp [lookupPost]

theorem mergeBlocks_fold_keys (blocks : List Block) :
    ∀ (f0 : Block) (u : String),
      u ∈ keysOf (blocks.foldl (fun final block =>
          block.foldl (fun f e => extendPost e.1 e.2 f) final) f0) ↔
        u ∈ keysOf f0 ∨ ∃ b ∈ blocks, u ∈ keysOf b := by
  induction blocks with
  | nil => simp
  | cons b rest ih =>
      intro f0 u
      simp only [List.foldl_cons]
      rw [ih, foldl_extendPost_keys b f0 u]
      simp only [List.mem_cons, keysOf]
      constructor
      · rintro ((h | h) | ⟨c, hc, h⟩)
        · exact Or.inl h
        · exact Or.inr ⟨b, Or.inl rfl, h⟩
        · exact Or.inr ⟨c, Or.inr hc, h⟩
      · rintro (h | ⟨c, (rfl | hc), h⟩)
        · exact Or.inl (Or.inl h)
        · exact Or.inl (Or.inr h)
        · exact Or.inr ⟨c, hc, h⟩

theorem mergeBlocks_keys (blocks : List Block) (u : String) :
    u ∈ keysOf (mergeBlocks blocks) ↔ ∃ b ∈ blocks, u ∈ keysOf b := by
  rw [show mergeBlocks blocks = blocks.foldl (fun final block =>
      block.foldl (fun f e => extendPost e.1 e.2 f) final) [] from rfl,
    mergeBlocks_fold_keys blocks [] u]
  simp [keysOf]

theorem closedBlocks_stream (st : SpimiState) (t : String) :
    ((closedBlocks st).map (fun b => (lookupPost b t).getD [])).flatten =
      streamOf st t := by
  unfold closedBlocks streamOf
  by_cases h : st.inverted_block.length > 0
  · rw [if_pos h]
    unfold flush_block
    simp [List.map_append, List.flatten_append]
  · rw [if_neg h]
    have hnil : st.inverted_block = [] := by
      cases hb : st.inverted_block
      · rfl
      · rw [hb] at h; simp at h
    rw [hnil]
    simp [lookupPost]

theorem closedBlocks_wf {st : SpimiState} (h : StateWF st) :
    ∀ b ∈ closedBlocks st, BlockWF b := by
  unfold closedBlocks
  by_cases hb : st.inverted_block.length > 0
  · rw [if_pos hb]
    intro b hbm
    simp only [flush_block, List.mem_append, List.mem_singleton] at hbm
    rcases hbm with hbm | hbm
    · exact h.2 b hbm
    · exact hbm ▸ h.1
  · rw [if_neg hb]
    exact h.2

theorem postingsSeq_docIDs (docs : List (List String × String)) :
    ∀ (i : Nat) (t : String),
      (postingsSeq i docs t).map Posting.docID = specFullBuild i docs t := by
  induction docs with
  | nil => intro i t; simp [postingsSeq, specFullBuild]
  | cons d rest ih =>
      intro i t
      rw [show postingsSeq i (d :: rest) t =
        (if t ∈ d.1 then [⟨i + 1, d.1.count t, d.2⟩] else []) ++ postingsSeq (i + 1) rest t
        from rfl]
      rw [show specFullBuild i (d :: rest) t =
        (if t ∈ d.1 then [i + 1] else []) ++ specFullBuild (i + 1) rest t from rfl]
      rw [List.map_append, ih]
      by_cases hm : t ∈ d.1 <;> simp [hm]

theorem specFullBuild_bound (docs : List (List String × String)) :
    ∀ (i : Nat) (t : String) (x : Nat), x ∈ specFullBuild i docs t → i < x := by
  induction docs with
  | nil => intro i t x hx; simp [specFullBuild] at hx
  | cons d rest ih =>
      intro i t x hx
      rw [show specFullBuild i (d :: rest) t =
        (if t ∈ d.1 then [i + 1] else []) ++ specFullBuild (i + 1) rest t from rfl] at hx
      rw [List.mem_append] at hx
      rcases hx with hx | hx
      · by_cases hm : t ∈ d.1
        · rw [if_pos hm, List.mem_singleton] at hx
          omega
        · rw [if_neg hm] at hx
          simp at hx
      · have := ih (i + 1) t x hx
        omega

theorem specFullBuild_sorted (docs : List (List String × String)) :
    ∀ (i : Nat) (t : String), List.Sorted (· < ·) (specFullBuild i docs t) := by
  induction docs with
  | nil => intro i t; simp [specFullBuild]
  | cons d rest ih =>
      intro i t
      rw [show specFullBuild i (d :: rest) t =
        (if t ∈ d.1 then [i + 1] else []) ++ specFullBuild (i + 1) rest t from rfl]
      by_cases hm : t ∈ d.1
      · rw [if_pos hm, List.singleton_append, List.sorted_cons]
        exact ⟨fun b hb => specFullBuild_bound rest (i + 1) t b hb, ih (i + 1) t⟩
      · rw [if_neg hm, List.nil_append]
        exact ih (i + 1) t

/-- C1: for every corpus fed to the spider's block accumulator (documents
numbered sequentially, as the spider numbers them), every block threshold
`T`, and every term, the postings list of the merged final index carries
exactly the docIDs of the documents containing the term, sorted strictly
ascending (hence each docID at most once), and its term set is exactly
the terms occurring in the token stream — the merged index coincides with
the hypothetical non-blocked full build. -/
theorem spimi_merge_build_equivalence (T : Nat)
    (corpus : List (List String × String)) (t : String) :
    docIDsOf ((lookupPost (finalIndexOf T corpus) t).getD []) = specFullBuild 0 corpus t
    ∧ List.Sorted (· < ·) (docIDsOf ((lookupPost (finalIndexOf T corpus) t).getD []))
    ∧ (docIDsOf ((lookupPost (finalIndexOf T corpus) t).getD [])).Nodup
    ∧ (t ∈ keysOf (finalIndexOf T corpus) ↔ specFullBuild 0 corpus t ≠ []) := by
  have hinit : StateWF initSpider :=
    ⟨⟨List.nodup_nil, by intro e he; simp [initSpider] at he⟩,
     by intro b hb; simp [initSpider] at hb⟩
  obtain ⟨hwf, hstream⟩ := runSpimiFrom_correct T corpus 0 initSpider hinit
  have hrun : runSpimi T corpus = runSpimiFrom T 0 corpus initSpider := rfl
  have hstream0 : streamOf (runSpimi T corpus) t = postingsSeq 0 corpus t := by
    rw [hrun, hstream t]
    simp [streamOf, initSpider, lookupPost]
  have hcwf : ∀ b ∈ closedBlocks (runSpimi T corpus), BlockWF b := by
    rw [hrun]
    exact closedBlocks_wf hwf
  have hlook : (lookupPost (finalIndexOf T corpus) t).getD [] = postingsSeq 0 corpus t := by
    rw [show finalIndexOf T corpus = mergeBlocks (closedBlocks (runSpimi T corpus)) from rfl,
      mergeBlocks_lookup _ hcwf, closedBlocks_stream, hstream0]
  have hids : docIDsOf ((lookupPost (finalIndexOf T corpus) t).getD []) =
      specFullBuild 0 corpus t := by
    rw [show docIDsOf ((lookupPost (finalIndexOf T corpus) t).getD []) =
      ((lookupPost (finalIndexOf T corpus) t).getD []).map Posting.docID from rfl,
      hlook, postingsSeq_docIDs corpus 0 t]
  have hsorted : List.Sorted (· < ·)
      (docIDsOf ((lookupPost (finalIndexOf T corpus) t).getD [])) := by
    rw [hids]
    exact specFullBuild_sorted corpus 0 t
  refine ⟨hids, hsorted, hsorted.imp (fun h => ne_of_lt h), ?_⟩
  rw [show finalIndexOf T corpus = mergeBlocks (closedBlocks (runSpimi T corpus)) from rfl,
    mergeBlocks_keys]
  constructor
  · rintro ⟨b, hbmem, htb⟩
    have hbwf := hcwf b hbmem
    obtain ⟨ps, hps⟩ := Option.isSome_iff_exists.1 ((lookupPost_isSome_iff b t).2 htb)
    have hpsne : ps ≠ [] := hbwf.2 (t, ps) (lookupPost_mem hps)
    intro hcon
    have hseq : postingsSeq 0 corpus t = [] := by
      have := postingsSeq_docIDs corpus 0 t
      rw [hcon] at this
      exact List.map_eq_nil_iff.1 this
    rw [← hstream0, ← closedBlocks_stream] at hseq
    rw [List.flatten_eq_nil_iff] at hseq
    have := hseq ((lookupPost b t).getD []) (List.mem_map_of_mem _ hbmem)
    rw [hps] at this
    exact hpsne this
  · intro hne
    have hpne : ((closedBlocks (runSpimi T corpus)).map
        (fun b => (lookupPost b t).getD [])).flatten ≠ [] := by
      rw [closedBlocks_stream, hstream0]
      intro h
      apply hne
      rw [← postingsSeq_docIDs, h]
      rfl
    have hex : ∃ l ∈ (closedBlocks (runSpimi T corpus)).map
        (fun b => (lookupPost b t).getD []), l ≠ [] := by
      by_contra hcon
      push_neg at hcon
      exact hpne (List.flatten_eq_nil_iff.2 hcon)
    obtain ⟨l, hl, hlne⟩ := hex
    obtain ⟨b, hbmem, rfl⟩ := List.mem_map.1 hl
    have hbsome : (lookupPost b t).isSome := by
      cases hlb : lookupPost b t
      · rw [hlb] at hlne
        simp at hlne
      · simp
    exact ⟨b, hbmem, (lookupPost_isSome_iff b t).1 hbsome⟩

end InfoRetrieval
